import Mathlib

set_option maxHeartbeats 1000000

namespace Kntrl

/-!
Shallow embedding of the kntrl egress-control engine: the two `Run` entry
points (package `kntrl` and package `tracer`), the `IP4Event` record layout,
the shared allow map, and the allow-list seeding pipeline from
`pkg/parser/flag.go`.
-/

/-! Byte-level helpers mirroring `encoding/binary` little-endian codecs. -/

/-- Little-endian byte list of width `w` for the natural number `n`
(mirrors how `encoding/binary` lays out unsigned integers). -/
def leBytes : Nat → Nat → List Nat
  | 0, _ => []
  | w + 1, n => n % 256 :: leBytes w (n / 256)

/-- Little-endian value of a byte list (inverse direction of `leBytes`). -/
def leUint : List Nat → Nat
  | [] => 0
  | b :: bs => b + 256 * leUint bs

/-- Value of `binary.LittleEndian.Uint32` on a byte slice: it reads exactly
the first four bytes; on a shorter slice the Go bounds check panics, which
we model as `none`. -/
def leUint32go (bs : List Nat) : Option Nat :=
  if 4 ≤ bs.length then some (leUint (bs.take 4)) else none

/-- The `uint32` key under which a 4-byte IPv4 address is stored in the
allow map: the little-endian `uint32` reading of its first four bytes
(`binary.LittleEndian.Uint32`, as done by the seeding writes). -/
def keyOfBytes (bs : List Nat) : Nat := leUint (bs.take 4)

theorem leBytes_length (w n : Nat) : (leBytes w n).length = w := by
  induction w generalizing n with
  | zero => rfl
  | succ w ih => simp [leBytes, ih]

theorem leUint_leBytes (w n : Nat) (h : n < 256 ^ w) : leUint (leBytes w n) = n := by
  induction w generalizing n with
  | zero =>
      simp [pow_zero] at h
      simp [h, leBytes, leUint]
  | succ w ih =>
      have hdiv : n / 256 < 256 ^ w := by
        apply Nat.div_lt_of_lt_mul
        rw [pow_succ] at h
        omega
      simp [leBytes, leUint, ih _ hdiv]
      omega

/-! The allow map. The kernel-shared BPF hash map `allow_map` has 4-byte
keys and 4-byte values; a put (`Map.Put` with the default update flag) is
insert-or-overwrite at per-key granularity. We model its user-visible state
as an association list whose keys are the `uint32` values of the 4-byte
key slots. -/

abbrev AllowMap := List (Nat × Nat)

def mapEmpty : AllowMap := []

/-- Key presence in the allow map. -/
def mapHas (m : AllowMap) (k : Nat) : Bool := m.any (fun p => p.1 == k)

/-- Insert-or-overwrite, the semantics of a BPF map update (`Put`). -/
def mapPut (m : AllowMap) (k v : Nat) : AllowMap :=
  if mapHas m k then m.map (fun p => if p.1 == k then (k, v) else p)
  else (k, v) :: m

/-- Number of entries stored under key `k`. -/
def mapCount (m : AllowMap) (k : Nat) : Nat := (m.filter (fun p => p.1 == k)).length

/-- The map has no two entries with the same key. -/
def nodupKeys (m : AllowMap) : Prop := (m.map Prod.fst).Nodup

instance (m : AllowMap) : Decidable (nodupKeys m) := by
  unfold nodupKeys; infer_instance

theorem mapHas_iff (m : AllowMap) (k : Nat) : mapHas m k = true ↔ k ∈ m.map Prod.fst := by
  simp only [mapHas, List.any_eq_true, List.mem_map, beq_iff_eq]

theorem keys_mapPut (m : AllowMap) (k v : Nat) :
    (mapPut m k v).map Prod.fst =
      if mapHas m k then m.map Prod.fst else k :: m.map Prod.fst := by
  unfold mapPut
  split
  · rw [List.map_map]
    apply List.map_congr_left
    intro p _
    by_cases h : p.1 = k <;> simp [h]
  · simp

theorem mapHas_mapPut (m : AllowMap) (k v k' : Nat) :
    mapHas (mapPut m k v) k' = (k' == k || mapHas m k') := by
  by_cases h : k' = k
  · subst h
    have h1 : mapHas (mapPut m k' v) k' = true := by
      rw [mapHas_iff, keys_mapPut]
      split
      · rw [← mapHas_iff]; assumption
      · exact List.mem_cons_self _ _
    simp [h1]
  · have h2 : mapHas (mapPut m k v) k' = mapHas m k' := by
      by_cases hm : mapHas m k' = true
      · rw [hm]
        rw [mapHas_iff, keys_mapPut]
        split
        · rw [← mapHas_iff]; assumption
        · exact List.mem_cons_of_mem _ ((mapHas_iff m k').mp hm)
      · simp only [Bool.not_eq_true] at hm
        rw [hm]
        rw [← Bool.not_eq_true, mapHas_iff, keys_mapPut]
        split
        · rw [← mapHas_iff]; simp [hm]
        · intro hmem
          rcases List.mem_cons.mp hmem with h' | h'
          · exact h h'
          · rw [← mapHas_iff] at h'; simp [hm] at h'
    simp [h2, h]

theorem nodupKeys_mapPut (m : AllowMap) (k v : Nat) (h : nodupKeys m) :
    nodupKeys (mapPut m k v) := by
  unfold nodupKeys
  rw [keys_mapPut]
  split
  · exact h
  · case _ hhas =>
      refine List.Nodup.cons ?_ h
      rw [← mapHas_iff]
      simpa using hhas

theorem mapCount_eq_zero (m : AllowMap) (k : Nat) (h : mapHas m k = false) :
    mapCount m k = 0 := by
  induction m with
  | nil => rfl
  | cons p t ih =>
      simp only [mapHas, List.any_cons, Bool.or_eq_false_iff] at h
      simp only [mapCount, List.filter]
      rw [h.1]
      exact ih h.2

theorem mapCount_eq_one (m : AllowMap) (k : Nat) (hnd : nodupKeys m)
    (hk : mapHas m k = true) : mapCount m k = 1 := by
  induction m with
  | nil => simp [mapHas] at hk
  | cons p t ih =>
      unfold nodupKeys at hnd
      simp only [List.map_cons, List.nodup_cons] at hnd
      by_cases h : p.1 = k
      · have htf : mapHas t k = false := by
          rw [← Bool.not_eq_true, mapHas_iff]
          rw [← h]
          exact hnd.1
        simp only [mapCount, List.filter, h, beq_self_eq_true]
        have := mapCount_eq_zero t k htf
        simp only [mapCount] at this
        simp [this]
      · simp only [mapHas, List.any_cons, Bool.or_eq_true] at hk
        rcases hk with hk | hk
        · exact absurd (by simpa using hk) h
        · have : mapCount t k = 1 := ih hnd.2 hk
          simp only [mapCount, List.filter] at this ⊢
          have hb : (p.1 == k) = false := by simpa using h
          rw [hb]
          exact this

/-! String helpers over character lists (structural recursion, so that
everything evaluates by kernel reduction). These mirror the Go standard
library string routines the source calls. -/

/-- Go `strings.Split` with a single-character separator. -/
def splitOnChar (c : Char) : List Char → List (List Char)
  | [] => [[]]
  | a :: as =>
      match splitOnChar c as with
      | [] => [[]]
      | g :: gs => if a = c then [] :: g :: gs else (a :: g) :: gs

/-- Go `strings.Split` with a doubled-character separator such as
the IPv6 elision marker (leftmost, non-overlapping occurrences). -/
def splitSeq2 (c : Char) : List Char → List (List Char)
  | [] => [[]]
  | [a] => [[a]]
  | a :: b :: rest =>
      if a = c ∧ b = c then [] :: splitSeq2 c rest
      else
        match splitSeq2 c (b :: rest) with
        | [] => [[a]]
        | g :: gs => (a :: g) :: gs

/-- Whether `pat` occurs at the head of the list. -/
def headMatches : List Char → List Char → Bool
  | _, [] => true
  | [], _ :: _ => false
  | a :: as, b :: bs => a == b && headMatches as bs

/-- Whether `pat` occurs contiguously anywhere in `l`. -/
def seqInside : List Char → List Char → Bool
  | [], pat => pat.isEmpty
  | a :: t, pat => headMatches (a :: t) pat || seqInside t pat

/-- Go `strings.Contains`. -/
def strContains (s pat : String) : Bool := seqInside s.toList pat.toList

/-! Model of the Go standard library `net.ParseIP` / `IP.To4`, which
`pkg/parser/flag.go` calls. `net.ParseIP` returns a 16-byte slice:
dotted-quad input goes through `parseIPv4` (decimal fields 0-255, leading
zeros on multi-digit fields rejected) and is returned in IPv4-in-IPv6
form; input containing a colon goes through the IPv6 parser. The IPv6
branch is modelled for the plain hex-groups forms (with at most one `::`
elision); the embedded-IPv4-tail and zone-suffix forms Go additionally
accepts are not modelled, which only narrows the accepted set and is not
relied on by any theorem. -/

def v4MappedHead : List Nat := [0, 0, 0, 0, 0, 0, 0, 0, 0, 0, 255, 255]

/-- One decimal field of a dotted quad: digits consumed greedily, value at
most 255, leading zero on a multi-digit field rejected (Go 1.17+). -/
def parseV4Field (cs : List Char) : Option (Nat × List Char) :=
  let ds := cs.takeWhile Char.isDigit
  let rest := cs.dropWhile Char.isDigit
  if ds.isEmpty then none
  else
    let n := ds.foldl (fun a c => a * 10 + (c.toNat - 48)) 0
    if 255 < n then none
    else if 1 < ds.length ∧ ds.head? = some '0' then none
    else some (n, rest)

def expectDot : List Char → Option (List Char)
  | '.' :: t => some t
  | _ => none

/-- Go `parseIPv4` (net/ip.go): four dot-separated decimal fields with
nothing left over, yielding the four address bytes. -/
def parseIPv4go (s : List Char) : Option (List Nat) := do
  let (a, r1) ← parseV4Field s
  let r1 ← expectDot r1
  let (b, r2) ← parseV4Field r1
  let r2 ← expectDot r2
  let (c, r3) ← parseV4Field r2
  let r3 ← expectDot r3
  let (d, r4) ← parseV4Field r3
  if r4.isEmpty then pure [a, b, c, d] else none

def isHexDigitChar (c : Char) : Bool :=
  c.isDigit || ('a' ≤ c && c ≤ 'f') || ('A' ≤ c && c ≤ 'F')

def isV6Group (g : List Char) : Bool :=
  decide (1 ≤ g.length) && decide (g.length ≤ 4) && g.all isHexDigitChar

def hexDigitVal (c : Char) : Nat :=
  if c.isDigit then c.toNat - 48
  else if 'a' ≤ c then c.toNat - 97 + 10
  else c.toNat - 65 + 10

def v6GroupVal (g : List Char) : Nat := g.foldl (fun a c => a * 16 + hexDigitVal c) 0

def v6GroupBytes (g : List Char) : List Nat := [v6GroupVal g / 256, v6GroupVal g % 256]

/-- Colon-separated pieces of one side of a `::` elision (an empty side
contributes no groups). -/
def v6SideGroups (side : List Char) : List (List Char) :=
  if side.isEmpty then [] else splitOnChar ':' side

/-- Go `parseIPv6` (net/ip.go), restricted to the plain hex-groups forms:
eight groups, or at most seven groups around exactly one `::` elision.
Yields the 16 address bytes. -/
def parseIPv6go (s : List Char) : Option (List Nat) :=
  match splitSeq2 ':' s with
  | [p] =>
      let gs := splitOnChar ':' p
      if gs.length = 8 ∧ gs.all isV6Group then some ((gs.map v6GroupBytes).flatten)
      else none
  | [l, r] =>
      let lg := v6SideGroups l
      let rg := v6SideGroups r
      if lg.all isV6Group ∧ rg.all isV6Group ∧ lg.length + rg.length ≤ 7 then
        some ((lg.map v6GroupBytes).flatten
          ++ List.replicate (2 * (8 - lg.length - rg.length)) 0
          ++ (rg.map v6GroupBytes).flatten)
      else none
  | _ => none

/-- Go `net.ParseIP` over a character list: the first `.` or `:` decides
the branch; no such character means `nil`. -/
def goParseIPcs (s : List Char) : Option (List Nat) :=
  match s.find? (fun c => c = '.' || c = ':') with
  | some '.' => (parseIPv4go s).map (fun bs => v4MappedHead ++ bs)
  | some ':' => parseIPv6go s
  | _ => none

/-- Go `net.ParseIP`. -/
def goParseIP (s : String) : Option (List Nat) := goParseIPcs s.toList

/-- Go `IP.To4`: the 4-byte form of an IPv4 or IPv4-in-IPv6 address,
Go `nil` (here `none`) otherwise. -/
def goTo4 (ip : List Nat) : Option (List Nat) :=
  if ip.length = 4 then some ip
  else if ip.length = 16 ∧ ip.take 12 = v4MappedHead then some (ip.drop 12)
  else none

/-- Go `net.ParseIP(s).To4()` with a nil-propagating receiver (`To4` on a
nil `net.IP` returns nil). -/
def parseThenTo4 (s : String) : Option (List Nat) :=
  match goParseIP s with
  | none => none
  | some ip => goTo4 ip

/-! Translation of `pkg/parser/flag.go`. -/

def localLoopback : String := "127.0.0.1"

def linkLocal : String := "169.254.169.254"

def azureMeta : String := "168.63.129.16"

/-- `parseAllowedIPAddr` (flag.go:31-47): split the input on commas, skip
unparseable segments, and for each parseable segment append its `To4()`
form — which is a Go nil `net.IP` (here `none`) for a non-IPv4 address.
The three fixed infrastructure addresses are appended afterwards. Entries
of the result model `net.IP` values, `none` being nil. -/
def parseAllowedIPAddr (ips : String) : List (Option (List Nat)) :=
  ((splitOnChar ',' ips.toList).filterMap (fun seg =>
      match goParseIPcs seg with
      | none => none
      | some i => some (goTo4 i)))
    ++ [parseThenTo4 localLoopback, parseThenTo4 linkLocal, parseThenTo4 azureMeta]

/-- The allow-map seeding loop of `Run` (part_000:122-131): for each host
`h`, the key `binary.LittleEndian.Uint32(h)` is written with value 1
(`uint32(key)` where `key := 1`). A nil host, or one shorter than four
bytes, makes `Uint32` panic on its bounds check, modelled as `none`. -/
def seedAllowMap : List (Option (List Nat)) → AllowMap → Option AllowMap
  | [], m => some m
  | h :: t, m =>
      match h with
      | none => none
      | some bs =>
          if 4 ≤ bs.length then seedAllowMap t (mapPut m (keyOfBytes bs) 1)
          else none

/-! The event records (part_000:243-257) and their binary decoding. -/

/-- `Event` (part_000:243-248): the common event header. Field values are
byte-decoded naturals; `Task` is the raw 16-byte task-name buffer. -/
structure Event where
  TsUs : Nat
  Pid : Nat
  Af : Nat
  Task : List Nat
  deriving Repr, DecidableEq

/-- `IP4Event` (part_000:250-257): a socket connect event from AF_INET. -/
structure IP4Event extends Event where
  Daddr : Nat
  Dport : Nat
  deriving Repr, DecidableEq

/-- Byte size of the fixed `IP4Event` layout:
8 (TsUs) + 4 (Pid) + 2 (Af) + 16 (Task) + 4 (Daddr) + 2 (Dport). -/
def ip4EventSize : Nat := 36

/-- `binary.Read(bytes.NewBuffer(record.RawSample), binary.LittleEndian,
&event)` (part_000:173): reads exactly 36 bytes from the front of the
buffer into the fixed little-endian layout; fewer than 36 available bytes
is an `io` error (`none`); any surplus bytes are simply left unread. -/
def decodeIP4Event (bs : List Nat) : Option IP4Event :=
  if bs.length < ip4EventSize then none
  else
    some
      { TsUs := leUint (bs.take 8)
        Pid := leUint ((bs.drop 8).take 4)
        Af := leUint ((bs.drop 12).take 2)
        Task := (bs.drop 14).take 16
        Daddr := leUint ((bs.drop 30).take 4)
        Dport := leUint ((bs.drop 34).take 2) }

/-- Encoding of an `IP4Event` in the fixed little-endian layout of the
kernel producer (spec section 6): timestamp u64, pid u32, address family
u16, 16-byte task name, destination address u32, destination port u16,
no padding. -/
def encodeIP4Event (e : IP4Event) : List Nat :=
  leBytes 8 e.TsUs ++ leBytes 4 e.Pid ++ leBytes 2 e.Af ++ e.Task
    ++ leBytes 4 e.Daddr ++ leBytes 2 e.Dport

/-- Field bounds of a well-formed `IP4Event` (each field fits its layout
slot). -/
def wfIP4Event (e : IP4Event) : Prop :=
  e.TsUs < 256 ^ 8 ∧ e.Pid < 256 ^ 4 ∧ e.Af < 256 ^ 2 ∧
    e.Task.length = 16 ∧ e.Daddr < 256 ^ 4 ∧ e.Dport < 256 ^ 2

instance (e : IP4Event) : Decidable (wfIP4Event e) := by
  unfold wfIP4Event; infer_instance

/-! The runtime allow-list growth and the main event loop of the kntrl
`Run` (part_000:161-214). -/

/-- The fixed allow-suffix list (part_000:161). -/
def allowedHosts : List String := [".github.com", ".kondukto.io"]

/-- Modelled from the spec: `utils.IntToIP` is not under `src/` (package
`utils` is an external collaborator here). Per spec sections 3 and 6 the
destination address is a 32-bit value in the fixed little-endian byte
order matching the kernel producer, so converting it back to its 4-byte
`net.IP` form lays the bytes out little-endian. -/
def IntToIP (n : Nat) : List Nat := leBytes 4 n

/-- Log lines the loop can emit, reduced to the decision-relevant kinds. -/
inductive LogEvent where
  | readError
  | parseError
  | addEntry : Nat → LogEvent
  | eventLine : Nat → LogEvent
  deriving Repr, DecidableEq

/-- The inner `for v` loop over the resolved names for one suffix
(part_000:185-193): every name containing the suffix puts the destination
address — as the 4-byte `net.IP` produced by `utils.IntToIP`, i.e. under
the same `uint32` key encoding the seeding writes use — with value 1, and
logs the addition. -/
def domainScan (daddr : Nat) (sfx : String) (acc : AllowMap × List LogEvent)
    (domains : List String) : AllowMap × List LogEvent :=
  domains.foldl
    (fun a d =>
      if strContains d sfx then
        (mapPut a.1 (keyOfBytes (IntToIP daddr)) 1,
         a.2 ++ [LogEvent.addEntry (keyOfBytes (IntToIP daddr))])
      else a)
    acc

/-- The outer `for i` loop over the fixed allow-suffixes (part_000:184). -/
def processSuffixMatch (m : AllowMap) (daddr : Nat) (domains : List String) :
    AllowMap × List LogEvent :=
  allowedHosts.foldl (fun acc sfx => domainScan daddr sfx acc domains) (m, [])

/-- The outcome of one `rd.Read()` in the loop head (part_000:165):
a record's raw sample bytes, the distinguished `perf.ErrClosed`, or any
other read error. -/
inductive ReadResult where
  | ok : List Nat → ReadResult
  | closedErr : ReadResult
  | otherErr : ReadResult
  deriving Repr, DecidableEq

/-- What one loop iteration does: whether it jumps to `EXIT`, the allow
map afterwards, and the log lines it emitted. -/
structure StepOut where
  exit : Bool
  m : AllowMap
  logs : List LogEvent
  deriving Repr, DecidableEq

/-- One iteration of the main event loop (part_000:164-203), parameterised
by `resolve`, the reverse-DNS results for a destination address after the
source's error handling (on a `LookupAddr` error the list is extended with
the sentinel name, so a lookup failure is never an error here). On
`perf.ErrClosed` control jumps to `EXIT`; on any other read error the
error is logged and the iteration falls through to decoding the zero-value
record, whose nil raw sample fails to decode, so the loop continues; a
record shorter than the fixed layout fails to decode, is logged, and is
skipped. -/
def loopIteration (resolve : Nat → List String) (m : AllowMap) :
    ReadResult → StepOut
  | ReadResult.closedErr => { exit := true, m := m, logs := [] }
  | ReadResult.otherErr =>
      { exit := false, m := m, logs := [LogEvent.readError, LogEvent.parseError] }
  | ReadResult.ok bs =>
      match decodeIP4Event bs with
      | none => { exit := false, m := m, logs := [LogEvent.parseError] }
      | some ev =>
          let domains := resolve ev.Daddr
          let r := processSuffixMatch m ev.Daddr domains
          { exit := false, m := r.1, logs := r.2 ++ [LogEvent.eventLine ev.Pid] }

/-- Whether the loop is still running or reached `EXIT` — after which
`Run` finalises and returns nil (part_000:205-213). -/
inductive LoopStatus where
  | running
  | returnedNil
  deriving Repr, DecidableEq

/-- The main event loop driven by a finite trace of read outcomes:
it runs until an iteration jumps to `EXIT` (after which `Run` returns
nil) or the trace is exhausted. -/
def runLoop (resolve : Nat → List String) (m : AllowMap) :
    List ReadResult → AllowMap × LoopStatus
  | [] => (m, LoopStatus.running)
  | r :: rs =>
      let s := loopIteration resolve m r
      if s.exit then (s.m, LoopStatus.returnedNil)
      else runLoop resolve s.m rs

/-! Control-flow models of the two `Run` entry points up to the event
loop, as traces of the externally visible effects each path performs. -/

/-- The effects a run performs, in program order. -/
inductive Eff where
  | removeMemlock
  | load
  | attach
  | modePut
  | allowPut
  | openReader
  | enterLoop
  | cleanInvoked
  deriving Repr, DecidableEq

/-- The distinguishable error returns of a run. -/
inductive RunErr where
  | errModeRequired
  | errModeInvalid
  | errParseHosts
  | errRoot
  | errMemlock
  | errAttach
  deriving Repr, DecidableEq

/-- How a run leaves the modelled region: a normal error return (deferred
calls run), a `logger.Log.Fatalf` (`os.Exit`, deferred calls skipped), a
runtime panic (deferred calls run during unwinding), or reaching the event
loop. -/
inductive Outcome where
  | errReturn : RunErr → Outcome
  | fatalExit
  | panicked
  | loopEntered
  deriving Repr, DecidableEq

/-- Environment of one kntrl `Run` execution: which external steps
succeed, and the seeding inputs. -/
structure KntrlEnv where
  isRoot : Bool
  memlockOk : Bool
  loadSpecOk : Bool
  newCollOk : Bool
  attachOk : Bool
  modePutOk : Bool
  hosts : List (Option (List Nat))
  seedPutOk : Bool
  readersOk : Bool

/-- The kntrl `Run` (part_000:37-214) up to the event loop. `e.clean()` is
deferred at entry (line 39), so every `return` path invokes it — but on
paths reached before `e.load()` completes, `e.Collection` is still nil and
`Collection.Close` dereferences it: a runtime panic, not a safe cleanup.
`logger.Log.Fatalf` paths call `os.Exit` and skip the deferred clean
entirely. `allowPut` stands for the seeding writes; a nil or short host
makes `binary.LittleEndian.Uint32` panic mid-loop (`seedAllowMap` is
`none`), and a map-write error is a `Fatalf`. -/
def kntrlRunPrelude (env : KntrlEnv) : List Eff × Outcome :=
  if ¬ env.isRoot then ([Eff.cleanInvoked], Outcome.panicked)
  else if ¬ env.memlockOk then
    ([Eff.removeMemlock, Eff.cleanInvoked], Outcome.panicked)
  else if ¬ env.loadSpecOk then ([Eff.removeMemlock, Eff.load], Outcome.fatalExit)
  else if ¬ env.newCollOk then ([Eff.removeMemlock, Eff.load], Outcome.fatalExit)
  else if ¬ env.attachOk then
    ([Eff.removeMemlock, Eff.load, Eff.attach, Eff.cleanInvoked],
     Outcome.errReturn RunErr.errAttach)
  else if ¬ env.modePutOk then
    ([Eff.removeMemlock, Eff.load, Eff.attach, Eff.modePut], Outcome.fatalExit)
  else
    let seedEffs := env.hosts.map fun _ => Eff.allowPut
    match seedAllowMap env.hosts mapEmpty with
    | none =>
        ([Eff.removeMemlock, Eff.load, Eff.attach, Eff.modePut] ++ seedEffs
           ++ [Eff.cleanInvoked],
         Outcome.panicked)
    | some _ =>
        if ¬ env.seedPutOk then
          ([Eff.removeMemlock, Eff.load, Eff.attach, Eff.modePut] ++ seedEffs,
           Outcome.fatalExit)
        else if ¬ env.readersOk then
          ([Eff.removeMemlock, Eff.load, Eff.attach, Eff.modePut] ++ seedEffs
             ++ [Eff.openReader],
           Outcome.fatalExit)
        else
          ([Eff.removeMemlock, Eff.load, Eff.attach, Eff.modePut] ++ seedEffs
             ++ [Eff.openReader, Eff.openReader, Eff.enterLoop, Eff.cleanInvoked],
           Outcome.loopEntered)

/-- Modelled from the spec: the two recognised mode strings (spec sections
4.3 and 6, Monitor and Trace); the `internal/core/domain` constants the
tracer variant compares against are not under `src/`. -/
def TracerModeMonitor : String := "monitor"

/-- Modelled from the spec: see `TracerModeMonitor`. -/
def TracerModeTrace : String := "trace"

/-- Environment of one tracer `Run` execution. `parsedHosts` is the
outcome of `utils.ParseHosts` (external), given as the seeded key list, or
`none` for a parse error. -/
structure TracerEnv where
  mode : String
  hostsFlag : String
  parsedHosts : Option (List Nat)
  isRoot : Bool
  loadOk : Bool
  modePutOk : Bool
  seedPutOk : Bool
  readersOk : Bool
  reporterOk : Bool
  memlockOk : Bool
  attachOk : Bool

/-- The tracer `Run` (part_000:292-455) up to the event loop. The mode
string is validated first (empty, then unrecognised), before hosts
parsing, the root check, and any kernel-facing step. `defer
ebpfClient.Clean()` is registered only after `Load` succeeds (line 321),
so earlier returns never invoke it; `Fatalf` paths skip it. Note
`rlimit.RemoveMemlock` (line 375) runs after `Load` (line 317), and the
attach loop runs after both. A put error during seeding aborts that loop
with `Fatalf`; the trace keeps the full marker list for simplicity, which
no theorem relies on. -/
def tracerRunPrelude (env : TracerEnv) : List Eff × Outcome :=
  if env.mode = "" then ([], Outcome.errReturn RunErr.errModeRequired)
  else if env.mode ≠ TracerModeMonitor ∧ env.mode ≠ TracerModeTrace then
    ([], Outcome.errReturn RunErr.errModeInvalid)
  else
    match env.parsedHosts with
    | none => ([], Outcome.errReturn RunErr.errParseHosts)
    | some hostKeys =>
        if ¬ env.isRoot then ([], Outcome.errReturn RunErr.errRoot)
        else if ¬ env.loadOk then ([Eff.load], Outcome.fatalExit)
        else if ¬ env.modePutOk then ([Eff.load, Eff.modePut], Outcome.fatalExit)
        else
          let seedEffs := hostKeys.map fun _ => Eff.allowPut
          if ¬ env.seedPutOk then
            ([Eff.load, Eff.modePut] ++ seedEffs, Outcome.fatalExit)
          else if ¬ env.readersOk then
            ([Eff.load, Eff.modePut] ++ seedEffs ++ [Eff.openReader],
             Outcome.fatalExit)
          else if ¬ env.reporterOk then
            ([Eff.load, Eff.modePut] ++ seedEffs
               ++ [Eff.openReader, Eff.openReader],
             Outcome.fatalExit)
          else if ¬ env.memlockOk then
            ([Eff.load, Eff.modePut] ++ seedEffs
               ++ [Eff.openReader, Eff.openReader, Eff.removeMemlock,
                   Eff.cleanInvoked],
             Outcome.errReturn RunErr.errMemlock)
          else if ¬ env.attachOk then
            ([Eff.load, Eff.modePut] ++ seedEffs
               ++ [Eff.openReader, Eff.openReader, Eff.removeMemlock, Eff.attach,
                   Eff.cleanInvoked],
             Outcome.errReturn RunErr.errAttach)
          else
            ([Eff.load, Eff.modePut] ++ seedEffs
               ++ [Eff.openReader, Eff.openReader, Eff.removeMemlock, Eff.attach,
                   Eff.enterLoop, Eff.cleanInvoked],
             Outcome.loopEntered)

/-! The tracer variant's runtime suffix-matching loop (part_000:475-485). -/

/-- The tracer variant's fixed allow-suffix list (part_000:452). -/
def allowedHostsAddress : List String := [".github.com", ".kondukto.io"]

/-- Go `len` of a string: its UTF-8 byte length. -/
def goStrLen (s : String) : Nat := s.toList.foldl (fun a c => a + c.utf8Size) 0

/-- The tracer runtime suffix-matching loop (part_000:475-485): the outer
bound is `len(allowedHosts)` — the byte length of the raw hosts flag
STRING (part_000:302) — while the body indexes the two-element
`allowedHostsAddress` list; an index at or beyond that list's length is a
Go index-out-of-range panic, modelled as `none`. The indexing happens
inside the inner loop body, so it is only reached when the resolved-name
list is nonempty. -/
def tracerSuffixLoop (hostsFlag : String) (domains : List String)
    (m : AllowMap) (daddr : Nat) : Option AllowMap :=
  (List.range (goStrLen hostsFlag)).foldl
    (fun acc i =>
      match acc with
      | none => none
      | some mm =>
          if domains.isEmpty then some mm
          else
            match allowedHostsAddress[i]? with
            | none => none
            | some sfx =>
                some (domains.foldl
                  (fun m2 d =>
                    if strContains d sfx then
                      mapPut m2 (keyOfBytes (IntToIP daddr)) 1
                    else m2)
                  mm))
    (some m)

/-! Supporting lemmas. -/

theorem take_app_len {α : Type} (a b : List α) {n : Nat} (h : a.length = n) :
    (a ++ b).take n = a := by
  subst h
  induction a with
  | nil => simp
  | cons x t ih => simp [ih]

theorem drop_app_len {α : Type} (a b : List α) {n : Nat} (h : a.length = n) :
    (a ++ b).drop n = b := by
  subst h
  induction a with
  | nil => simp
  | cons x t ih => simp [ih]

theorem mapHas_mapPut_self (m : AllowMap) (k v : Nat) :
    mapHas (mapPut m k v) k = true := by
  simp [mapHas_mapPut]

theorem mapHas_mapPut_of_has (m : AllowMap) (k v k' : Nat)
    (h : mapHas m k' = true) : mapHas (mapPut m k v) k' = true := by
  simp [mapHas_mapPut, h]

theorem domainScan_nil (daddr : Nat) (sfx : String) (acc : AllowMap × List LogEvent) :
    domainScan daddr sfx acc [] = acc := rfl

theorem domainScan_cons (daddr : Nat) (sfx : String) (acc : AllowMap × List LogEvent)
    (d : String) (t : List String) :
    domainScan daddr sfx acc (d :: t)
      = domainScan daddr sfx
          (if strContains d sfx then
             (mapPut acc.1 (keyOfBytes (IntToIP daddr)) 1,
              acc.2 ++ [LogEvent.addEntry (keyOfBytes (IntToIP daddr))])
           else acc)
          t := rfl

theorem domainScan_has_mono (daddr : Nat) (sfx : String)
    (acc : AllowMap × List LogEvent) (ds : List String) (k : Nat)
    (h : mapHas acc.1 k = true) :
    mapHas (domainScan daddr sfx acc ds).1 k = true := by
  induction ds generalizing acc with
  | nil => exact h
  | cons d t ih =>
      rw [domainScan_cons]
      by_cases hc : strContains d sfx = true
      · apply ih
        simp [hc, mapHas_mapPut, h]
      · apply ih
        simp only [Bool.not_eq_true] at hc
        simp [hc, h]

theorem domainScan_nodup (daddr : Nat) (sfx : String)
    (acc : AllowMap × List LogEvent) (ds : List String)
    (h : nodupKeys acc.1) :
    nodupKeys (domainScan daddr sfx acc ds).1 := by
  induction ds generalizing acc with
  | nil => exact h
  | cons d t ih =>
      rw [domainScan_cons]
      by_cases hc : strContains d sfx = true
      · apply ih
        simp only [hc, if_true]
        exact nodupKeys_mapPut _ _ _ h
      · apply ih
        simp only [Bool.not_eq_true] at hc
        simp [hc, h]

theorem domainScan_has_of_match (daddr : Nat) (sfx : String)
    (acc : AllowMap × List LogEvent) (ds : List String)
    (h : ∃ d ∈ ds, strContains d sfx = true) :
    mapHas (domainScan daddr sfx acc ds).1 (keyOfBytes (IntToIP daddr)) = true := by
  induction ds generalizing acc with
  | nil => simp at h
  | cons d t ih =>
      rw [domainScan_cons]
      rcases h with ⟨d', hd', hc⟩
      rcases List.mem_cons.mp hd' with rfl | hmem
      · apply domainScan_has_mono
        simp [hc, mapHas_mapPut_self]
      · by_cases hc2 : strContains d sfx = true
        · apply domainScan_has_mono
          simp [hc2, mapHas_mapPut_self]
        · exact ih _ ⟨d', hmem, hc⟩

theorem psm_unfold (m : AllowMap) (daddr : Nat) (ds : List String) :
    processSuffixMatch m daddr ds
      = domainScan daddr ".kondukto.io"
          (domainScan daddr ".github.com" (m, []) ds) ds := rfl

theorem psm_has_mono (m : AllowMap) (daddr : Nat) (ds : List String) (k : Nat)
    (h : mapHas m k = true) :
    mapHas (processSuffixMatch m daddr ds).1 k = true := by
  rw [psm_unfold]
  exact domainScan_has_mono _ _ _ _ _ (domainScan_has_mono _ _ _ _ _ h)

theorem psm_nodup (m : AllowMap) (daddr : Nat) (ds : List String)
    (h : nodupKeys m) :
    nodupKeys (processSuffixMatch m daddr ds).1 := by
  rw [psm_unfold]
  exact domainScan_nodup _ _ _ _ (domainScan_nodup _ _ _ _ h)

theorem psm_has_of_match (m : AllowMap) (daddr : Nat) (ds : List String)
    (h : ∃ sfx ∈ allowedHosts, ∃ d ∈ ds, strContains d sfx = true) :
    mapHas (processSuffixMatch m daddr ds).1 (keyOfBytes (IntToIP daddr)) = true := by
  rw [psm_unfold]
  rcases h with ⟨sfx, hsfx, hmatch⟩
  have : sfx = ".github.com" ∨ sfx = ".kondukto.io" := by
    simpa [allowedHosts] using hsfx
  rcases this with rfl | rfl
  · exact domainScan_has_mono _ _ _ _ _ (domainScan_has_of_match _ _ _ _ hmatch)
  · exact domainScan_has_of_match _ _ _ _ hmatch

theorem loopIteration_has_mono (resolve : Nat → List String) (m : AllowMap)
    (r : ReadResult) (k : Nat) (h : mapHas m k = true) :
    mapHas (loopIteration resolve m r).m k = true := by
  cases r with
  | closedErr => exact h
  | otherErr => exact h
  | ok bs =>
      cases hd : decodeIP4Event bs with
      | none => simpa [loopIteration, hd] using h
      | some ev =>
          simpa [loopIteration, hd] using
            psm_has_mono m ev.Daddr (resolve ev.Daddr) k h

theorem runLoop_has_mono (resolve : Nat → List String) (m : AllowMap)
    (rs : List ReadResult) (k : Nat) (h : mapHas m k = true) :
    mapHas (runLoop resolve m rs).1 k = true := by
  induction rs generalizing m with
  | nil => exact h
  | cons r t ih =>
      unfold runLoop
      by_cases he : (loopIteration resolve m r).exit
      · simp only [he, if_true]
        exact loopIteration_has_mono resolve m r k h
      · simp only [he, if_false]
        exact ih _ (loopIteration_has_mono resolve m r k h)

theorem seed_has_mono (hs : List (Option (List Nat))) (m m' : AllowMap) (k : Nat)
    (hseed : seedAllowMap hs m = some m') (h : mapHas m k = true) :
    mapHas m' k = true := by
  induction hs generalizing m with
  | nil =>
      simp only [seedAllowMap, Option.some.injEq] at hseed
      exact hseed ▸ h
  | cons x t ih =>
      cases x with
      | none => simp [seedAllowMap] at hseed
      | some bs =>
          by_cases hl : 4 ≤ bs.length
          · simp only [seedAllowMap, hl, if_true] at hseed
            exact ih _ hseed (mapHas_mapPut_of_has _ _ _ _ h)
          · simp [seedAllowMap, hl] at hseed

theorem seed_nodup (hs : List (Option (List Nat))) (m m' : AllowMap)
    (hseed : seedAllowMap hs m = some m') (h : nodupKeys m) : nodupKeys m' := by
  induction hs generalizing m with
  | nil =>
      simp only [seedAllowMap, Option.some.injEq] at hseed
      exact hseed ▸ h
  | cons x t ih =>
      cases x with
      | none => simp [seedAllowMap] at hseed
      | some bs =>
          by_cases hl : 4 ≤ bs.length
          · simp only [seedAllowMap, hl, if_true] at hseed
            exact ih _ hseed (nodupKeys_mapPut _ _ _ h)
          · simp [seedAllowMap, hl] at hseed

theorem seed_has_of_elem (hs : List (Option (List Nat))) (m m' : AllowMap)
    (bs : List Nat) (hseed : seedAllowMap hs m = some m') (hmem : some bs ∈ hs) :
    mapHas m' (keyOfBytes bs) = true := by
  induction hs generalizing m with
  | nil => simp at hmem
  | cons x t ih =>
      cases x with
      | none => simp [seedAllowMap] at hseed
      | some bs' =>
          by_cases hl : 4 ≤ bs'.length
          · simp only [seedAllowMap, hl, if_true] at hseed
            rcases List.mem_cons.mp hmem with he | hmem'
            · have : bs' = bs := by simpa using he.symm
              subst this
              exact seed_has_mono _ _ _ _ hseed (mapHas_mapPut_self _ _ _)
            · exact ih _ hseed hmem'
          · simp [seedAllowMap, hl] at hseed

/-- All stored values are the presence marker 1 (true of every write the
engine performs). -/
def allOnes (m : AllowMap) : Prop := ∀ p ∈ m, p.2 = 1

theorem allOnes_mapPut (m : AllowMap) (k : Nat) (h : allOnes m) :
    allOnes (mapPut m k 1) := by
  unfold mapPut
  split
  · intro p hp
    rcases List.mem_map.mp hp with ⟨q, hq, hfq⟩
    by_cases hqk : q.1 = k
    · simp only [hqk, beq_self_eq_true, if_true] at hfq
      rw [← hfq]
    · have hb : (q.1 == k) = false := by simpa using hqk
      rw [hb] at hfq
      simp only [Bool.false_eq_true, if_false] at hfq
      rw [← hfq]
      exact h q hq
  · intro p hp
    rcases List.mem_cons.mp hp with rfl | hp'
    · rfl
    · exact h p hp'

theorem seed_allOnes (hs : List (Option (List Nat))) (m m' : AllowMap)
    (hseed : seedAllowMap hs m = some m') (h : allOnes m) : allOnes m' := by
  induction hs generalizing m with
  | nil =>
      simp only [seedAllowMap, Option.some.injEq] at hseed
      exact hseed ▸ h
  | cons x t ih =>
      cases x with
      | none => simp [seedAllowMap] at hseed
      | some bs =>
          by_cases hl : 4 ≤ bs.length
          · simp only [seedAllowMap, hl, if_true] at hseed
            exact ih _ hseed (allOnes_mapPut _ _ h)
          · simp [seedAllowMap, hl] at hseed

theorem mapPut_self_eq (m : AllowMap) (k : Nat) (hhas : mapHas m k = true)
    (hones : allOnes m) : mapPut m k 1 = m := by
  unfold mapPut
  rw [if_pos hhas]
  have hpt : ∀ p ∈ m, (if p.1 == k then (k, 1) else p) = p := by
    intro p hp
    rcases p with ⟨p1, p2⟩
    by_cases hqk : p1 = k
    · have h1 := hones (p1, p2) hp
      simp at h1
      simp [hqk, h1]
    · simp [hqk]
  have h2 : List.map (fun p => if p.1 == k then (k, 1) else p) m = List.map id m :=
    List.map_congr_left hpt
  rw [h2, List.map_id]

theorem seed_elems_wf (hs : List (Option (List Nat))) (m m' : AllowMap)
    (hseed : seedAllowMap hs m = some m') :
    ∀ h ∈ hs, ∃ bs, h = some bs ∧ 4 ≤ bs.length := by
  induction hs generalizing m with
  | nil => simp
  | cons x t ih =>
      cases x with
      | none => simp [seedAllowMap] at hseed
      | some bs =>
          by_cases hl : 4 ≤ bs.length
          · simp only [seedAllowMap, hl, if_true] at hseed
            intro h hmem
            rcases List.mem_cons.mp hmem with rfl | hmem'
            · exact ⟨bs, rfl, hl⟩
            · exact ih _ hseed h hmem'
          · simp [seedAllowMap, hl] at hseed

theorem seed_idem (hs : List (Option (List Nat))) (m : AllowMap)
    (hones : allOnes m)
    (hwf : ∀ h ∈ hs, ∃ bs, h = some bs ∧ 4 ≤ bs.length ∧ mapHas m (keyOfBytes bs) = true) :
    seedAllowMap hs m = some m := by
  induction hs with
  | nil => rfl
  | cons x t ih =>
      rcases hwf x (List.mem_cons_self _ _) with ⟨bs, rfl, hl, hhas⟩
      simp only [seedAllowMap, hl, if_true]
      rw [mapPut_self_eq m (keyOfBytes bs) hhas hones]
      exact ih (fun h hm => hwf h (List.mem_cons_of_mem _ hm))

theorem goTo4_length (ip bs : List Nat) (h : goTo4 ip = some bs) :
    bs.length = 4 := by
  unfold goTo4 at h
  split at h
  · case _ h4 =>
      cases h
      assumption
  · split at h
    · case _ h16 =>
        cases h
        simp [List.length_drop, h16.1]
    · cases h

theorem parseAllowedIPAddr_entry_len (s : String) (bs : List Nat)
    (hmem : some bs ∈ parseAllowedIPAddr s) : bs.length = 4 := by
  unfold parseAllowedIPAddr at hmem
  rcases List.mem_append.mp hmem with hmem | hmem
  · rcases List.mem_filterMap.mp hmem with ⟨seg, _, hf⟩
    cases hp : goParseIPcs seg with
    | none => rw [hp] at hf; cases hf
    | some i =>
        rw [hp] at hf
        simp only [Option.some.injEq] at hf
        exact goTo4_length i bs hf
  · have hfix : parseThenTo4 localLoopback = some [127, 0, 0, 1]
        ∧ parseThenTo4 linkLocal = some [169, 254, 169, 254]
        ∧ parseThenTo4 azureMeta = some [168, 63, 129, 16] := by decide
    rw [hfix.1, hfix.2.1, hfix.2.2] at hmem
    rcases (by simpa using hmem :
        bs = [127, 0, 0, 1] ∨ bs = [169, 254, 169, 254] ∨ bs = [168, 63, 129, 16])
      with rfl | rfl | rfl <;> rfl

/-! Claim theorems. -/

/-- C1: for every decoded event whose reverse-resolved destination name
contains one of the fixed allow-suffixes, after that loop iteration the
destination address is present in the allow map under the same key
encoding the seeding writes use (the little-endian uint32 of the 4-byte
IPv4 address, `keyOfBytes` of `IntToIP`), exactly once; and processing the
same event a second time leaves it present exactly once — no second
distinct allow-map entry. -/
theorem suffix_match_adds_allow_entry_once (resolve : Nat → List String)
    (m : AllowMap) (bs : List Nat) (ev : IP4Event)
    (hnd : nodupKeys m)
    (hdec : decodeIP4Event bs = some ev)
    (hmatch : ∃ sfx ∈ allowedHosts, ∃ d ∈ resolve ev.Daddr,
        strContains d sfx = true) :
    mapHas (loopIteration resolve m (ReadResult.ok bs)).m
        (keyOfBytes (IntToIP ev.Daddr)) = true
    ∧ mapCount (loopIteration resolve m (ReadResult.ok bs)).m
        (keyOfBytes (IntToIP ev.Daddr)) = 1
    ∧ mapCount (loopIteration resolve
          (loopIteration resolve m (ReadResult.ok bs)).m (ReadResult.ok bs)).m
        (keyOfBytes (IntToIP ev.Daddr)) = 1 := by
  have hit : (loopIteration resolve m (ReadResult.ok bs)).m
      = (processSuffixMatch m ev.Daddr (resolve ev.Daddr)).1 := by
    simp [loopIteration, hdec]
  have h1 : mapHas (processSuffixMatch m ev.Daddr (resolve ev.Daddr)).1
      (keyOfBytes (IntToIP ev.Daddr)) = true :=
    psm_has_of_match _ _ _ hmatch
  have hnd1 : nodupKeys (processSuffixMatch m ev.Daddr (resolve ev.Daddr)).1 :=
    psm_nodup _ _ _ hnd
  have hit2 : (loopIteration resolve
        (loopIteration resolve m (ReadResult.ok bs)).m (ReadResult.ok bs)).m
      = (processSuffixMatch (processSuffixMatch m ev.Daddr (resolve ev.Daddr)).1
          ev.Daddr (resolve ev.Daddr)).1 := by
    simp [loopIteration, hdec, hit]
  refine ⟨?_, ?_, ?_⟩
  · rw [hit]; exact h1
  · rw [hit]; exact mapCount_eq_one _ _ hnd1 h1
  · rw [hit2]
    exact mapCount_eq_one _ _ (psm_nodup _ _ _ hnd1) (psm_has_mono _ _ _ _ h1)

/-- The event decoded from an all-zero 36-byte record, used by witnesses. -/
def ev0 : IP4Event :=
  { TsUs := 0, Pid := 0, Af := 0, Task := List.replicate 16 0, Daddr := 0, Dport := 0 }

/-- A reverse-DNS oracle answering a matching name, used by witnesses. -/
def resolveGit : Nat → List String := fun _ => ["x.github.com"]

/-- Witness for C1 at a concrete event. -/
theorem suffix_match_adds_allow_entry_once_witness :
    nodupKeys ([] : AllowMap)
    ∧ decodeIP4Event (List.replicate 36 0) = some ev0
    ∧ (∃ sfx ∈ allowedHosts, ∃ d ∈ resolveGit ev0.Daddr, strContains d sfx = true)
    ∧ (mapHas (loopIteration resolveGit [] (ReadResult.ok (List.replicate 36 0))).m
          (keyOfBytes (IntToIP ev0.Daddr)) = true
      ∧ mapCount (loopIteration resolveGit [] (ReadResult.ok (List.replicate 36 0))).m
          (keyOfBytes (IntToIP ev0.Daddr)) = 1
      ∧ mapCount (loopIteration resolveGit
            (loopIteration resolveGit [] (ReadResult.ok (List.replicate 36 0))).m
            (ReadResult.ok (List.replicate 36 0))).m
          (keyOfBytes (IntToIP ev0.Daddr)) = 1) :=
  ⟨by decide, by decide, by decide,
   suffix_match_adds_allow_entry_once resolveGit [] (List.replicate 36 0) ev0
     (by decide) (by decide) (by decide)⟩

/-- An environment in which every external step of the tracer `Run`
succeeds. -/
def tracerEnvAllOk : TracerEnv :=
  { mode := "trace", hostsFlag := "example.com", parsedHosts := some [],
    isRoot := true, loadOk := true, modePutOk := true, seedPutOk := true,
    readersOk := true, reporterOk := true, memlockOk := true, attachOk := true }

/-- C2 (code bug): in the tracer variant of `Run` the program artifact is
loaded (line 317) strictly before the memory-lock-limit relaxation
(line 375), so the relaxation is not performed before the first Load in
every execution, contrary to the documented precondition. -/
theorem tracer_load_precedes_memlock :
    Eff.load ∈ (tracerRunPrelude tracerEnvAllOk).1
    ∧ Eff.removeMemlock ∈ (tracerRunPrelude tracerEnvAllOk).1
    ∧ (tracerRunPrelude tracerEnvAllOk).1.indexOf Eff.load
        < (tracerRunPrelude tracerEnvAllOk).1.indexOf Eff.removeMemlock := by
  decide

/-- An environment in which every external step of the kntrl `Run`
succeeds. -/
def kntrlEnvAllOk : KntrlEnv :=
  { isRoot := true, memlockOk := true, loadSpecOk := true, newCollOk := true,
    attachOk := true, modePutOk := true, hosts := [], seedPutOk := true,
    readersOk := true }

/-- In the kntrl variant the relaxation does precede the load, for
contrast with the tracer variant. -/
theorem kntrl_memlock_precedes_load :
    (kntrlRunPrelude kntrlEnvAllOk).1.indexOf Eff.removeMemlock
      < (kntrlRunPrelude kntrlEnvAllOk).1.indexOf Eff.load := by decide

/-- C3 counterexample: a 37-byte record — longer than the fixed 36-byte
layout — decodes successfully (Go `binary.Read` reads exactly the
structure size and ignores surplus bytes), so decoding does not fail for
every length that differs from the layout. -/
theorem long_record_decodes :
    decodeIP4Event (List.replicate 37 0) = some ev0 := by decide

/-- C3 amended: for every record shorter than the fixed 36-byte layout,
decoding fails; the failure is logged, no allow-map write happens for that
record, and the loop proceeds to the next record without a fatal
condition. (Records of 36 bytes or more decode from their first 36
bytes.) -/
theorem short_record_skipped (resolve : Nat → List String) (m : AllowMap)
    (bs : List Nat) (h : bs.length < ip4EventSize) :
    decodeIP4Event bs = none
    ∧ loopIteration resolve m (ReadResult.ok bs)
        = { exit := false, m := m, logs := [LogEvent.parseError] } := by
  have hd : decodeIP4Event bs = none := by
    unfold decodeIP4Event
    rw [if_pos h]
  exact ⟨hd, by simp [loopIteration, hd]⟩

/-- Witness for the amended C3 at a 35-byte record. -/
theorem short_record_skipped_witness :
    (List.replicate 35 0).length < ip4EventSize
    ∧ (decodeIP4Event (List.replicate 35 0) = none
      ∧ loopIteration (fun _ => []) [] (ReadResult.ok (List.replicate 35 0))
          = { exit := false, m := [], logs := [LogEvent.parseError] }) :=
  ⟨by decide, short_record_skipped (fun _ => []) [] _ (by decide)⟩

def kntrlEnvNoRoot : KntrlEnv := { kntrlEnvAllOk with isRoot := false }

def kntrlEnvLoadFail : KntrlEnv := { kntrlEnvAllOk with loadSpecOk := false }

/-- C4 (code bug): on the missing-root-privilege early return the deferred
`clean` does run, but `e.Collection` is still nil and `Collection.Close`
dereferences it — a runtime panic, not a safe cleanup; and on the
load-failure path `logger.Log.Fatalf` exits the process, so the deferred
`clean` is invoked zero times rather than exactly once. -/
theorem clean_unsafe_or_skipped :
    kntrlRunPrelude kntrlEnvNoRoot = ([Eff.cleanInvoked], Outcome.panicked)
    ∧ (kntrlRunPrelude kntrlEnvLoadFail).1.count Eff.cleanInvoked = 0
    ∧ (kntrlRunPrelude kntrlEnvLoadFail).2 = Outcome.fatalExit := by decide

/-- C5: for every mode string that is empty or outside the two recognised
values, the tracer `Run` returns a configuration error with an empty
effect trace — before the loader is invoked and before any kernel
resource is touched. -/
theorem invalid_mode_aborts_before_load (env : TracerEnv)
    (h : env.mode = "" ∨ (env.mode ≠ TracerModeMonitor ∧ env.mode ≠ TracerModeTrace)) :
    (tracerRunPrelude env).1 = []
    ∧ ((tracerRunPrelude env).2 = Outcome.errReturn RunErr.errModeRequired
      ∨ (tracerRunPrelude env).2 = Outcome.errReturn RunErr.errModeInvalid) := by
  by_cases h0 : env.mode = ""
  · unfold tracerRunPrelude
    rw [if_pos h0]
    exact ⟨rfl, Or.inl rfl⟩
  · have hinv : env.mode ≠ TracerModeMonitor ∧ env.mode ≠ TracerModeTrace := by
      rcases h with h | h
      · exact absurd h h0
      · exact h
    unfold tracerRunPrelude
    rw [if_neg h0, if_pos hinv]
    exact ⟨rfl, Or.inr rfl⟩

/-- An environment whose mode string is unrecognised. -/
def tracerEnvBogus : TracerEnv := { tracerEnvAllOk with mode := "bogus" }

/-- Witness for C5 at the unrecognised mode string. -/
theorem invalid_mode_aborts_before_load_witness :
    (tracerEnvBogus.mode = ""
      ∨ (tracerEnvBogus.mode ≠ TracerModeMonitor ∧ tracerEnvBogus.mode ≠ TracerModeTrace))
    ∧ ((tracerRunPrelude tracerEnvBogus).1 = []
      ∧ ((tracerRunPrelude tracerEnvBogus).2 = Outcome.errReturn RunErr.errModeRequired
        ∨ (tracerRunPrelude tracerEnvBogus).2 = Outcome.errReturn RunErr.errModeInvalid)) :=
  ⟨by decide, invalid_mode_aborts_before_load tracerEnvBogus (by decide)⟩

/-- C6: a read failing with the distinguished reader-closed condition ends
the loop at once and `Run` proceeds to finalisation returning nil (never
an error); any other read error is logged and the loop continues with the
allow map unchanged. -/
theorem closed_reader_is_normal_exit (resolve : Nat → List String) (m : AllowMap)
    (rs : List ReadResult) :
    runLoop resolve m (ReadResult.closedErr :: rs) = (m, LoopStatus.returnedNil)
    ∧ loopIteration resolve m ReadResult.otherErr
        = { exit := false, m := m, logs := [LogEvent.readError, LogEvent.parseError] }
    ∧ runLoop resolve m (ReadResult.otherErr :: rs) = runLoop resolve m rs := by
  exact ⟨rfl, rfl, rfl⟩

/-- C7: encoding an `IP4Event` with the fixed little-endian layout and
decoding the resulting bytes yields a structurally identical event. -/
theorem encode_decode_roundtrip (e : IP4Event) (hwf : wfIP4Event e) :
    decodeIP4Event (encodeIP4Event e) = some e := by
  rcases e with ⟨⟨t, p, a, task⟩, d, q⟩
  obtain ⟨h1, h2, h3, h4, h5, h6⟩ := hwf
  have h1' : t < 256 ^ 8 := h1
  have h2' : p < 256 ^ 4 := h2
  have h3' : a < 256 ^ 2 := h3
  have h4' : task.length = 16 := h4
  have h5' : d < 256 ^ 4 := h5
  have h6' : q < 256 ^ 2 := h6
  have la : (leBytes 8 t).length = 8 := leBytes_length _ _
  have lb : (leBytes 4 p).length = 4 := leBytes_length _ _
  have lc : (leBytes 2 a).length = 2 := leBytes_length _ _
  have lf : (leBytes 4 d).length = 4 := leBytes_length _ _
  have lg : (leBytes 2 q).length = 2 := leBytes_length _ _
  have e0 : encodeIP4Event ⟨⟨t, p, a, task⟩, d, q⟩
      = leBytes 8 t ++ (leBytes 4 p ++ (leBytes 2 a
          ++ (task ++ (leBytes 4 d ++ leBytes 2 q)))) := by
    simp [encodeIP4Event, List.append_assoc]
  have hlen : (encodeIP4Event ⟨⟨t, p, a, task⟩, d, q⟩).length = 36 := by
    rw [e0]
    simp [la, lb, lc, h4', lf, lg]
  have d8 : (encodeIP4Event ⟨⟨t, p, a, task⟩, d, q⟩).drop 8
      = leBytes 4 p ++ (leBytes 2 a ++ (task ++ (leBytes 4 d ++ leBytes 2 q))) := by
    rw [e0]; exact drop_app_len _ _ la
  have d12 : (encodeIP4Event ⟨⟨t, p, a, task⟩, d, q⟩).drop 12
      = leBytes 2 a ++ (task ++ (leBytes 4 d ++ leBytes 2 q)) := by
    rw [show (12 : Nat) = 8 + 4 from rfl, ← List.drop_drop, d8]
    exact drop_app_len _ _ lb
  have d14 : (encodeIP4Event ⟨⟨t, p, a, task⟩, d, q⟩).drop 14
      = task ++ (leBytes 4 d ++ leBytes 2 q) := by
    rw [show (14 : Nat) = 12 + 2 from rfl, ← List.drop_drop, d12]
    exact drop_app_len _ _ lc
  have d30 : (encodeIP4Event ⟨⟨t, p, a, task⟩, d, q⟩).drop 30
      = leBytes 4 d ++ leBytes 2 q := by
    rw [show (30 : Nat) = 14 + 16 from rfl, ← List.drop_drop, d14]
    exact drop_app_len _ _ h4'
  have d34 : (encodeIP4Event ⟨⟨t, p, a, task⟩, d, q⟩).drop 34 = leBytes 2 q := by
    rw [show (34 : Nat) = 30 + 4 from rfl, ← List.drop_drop, d30]
    exact drop_app_len _ _ lf
  unfold decodeIP4Event
  rw [hlen, if_neg (by norm_num [ip4EventSize])]
  rw [d8, d12, d14, d30, d34]
  rw [show (encodeIP4Event ⟨⟨t, p, a, task⟩, d, q⟩).take 8 = leBytes 8 t from by
    rw [e0]; exact take_app_len _ _ la]
  rw [take_app_len _ _ lb, take_app_len _ _ lc, take_app_len _ _ h4',
    take_app_len _ _ lf]
  rw [show (leBytes 2 q).take 2 = leBytes 2 q from by
    rw [← lg]; exact List.take_length _]
  rw [leUint_leBytes 8 t h1', leUint_leBytes 4 p h2', leUint_leBytes 2 a h3',
    leUint_leBytes 4 d h5', leUint_leBytes 2 q h6']

/-- Witness for C7 at a concrete event. -/
theorem encode_decode_roundtrip_witness :
    wfIP4Event
      { TsUs := 7, Pid := 9, Af := 2, Task := List.replicate 16 107,
        Daddr := 16777343, Dport := 443 }
    ∧ decodeIP4Event (encodeIP4Event
        { TsUs := 7, Pid := 9, Af := 2, Task := List.replicate 16 107,
          Daddr := 16777343, Dport := 443 })
      = some { TsUs := 7, Pid := 9, Af := 2, Task := List.replicate 16 107,
               Daddr := 16777343, Dport := 443 } :=
  ⟨by decide, encode_decode_roundtrip _ (by decide)⟩

/-- C8 counterexample: the literal `::1` is a parseable IP, yet its
`To4()` form is nil, so the seeding loop panics on
`binary.LittleEndian.Uint32(nil)` — seeding does not complete and no
allow-map state results, contrary to the claim for arbitrary
comma-separated literal-IP input. -/
theorem seed_v6_literal_panics :
    goParseIP "::1" ≠ none
    ∧ parseThenTo4 "::1" = none
    ∧ seedAllowMap (parseAllowedIPAddr "::1") mapEmpty = none := by decide

/-- C8 amended: for every comma-separated input on which seeding completes
(equivalently, whose parseable entries are all IPv4), every caller-supplied
parseable IP and the three fixed infrastructure addresses are present in
the allow map exactly once, with no duplicate logical entries regardless
of input order, and re-writing the same addresses produces no error and no
change. -/
theorem parse_seed_exactly_once (s : String) (m' : AllowMap)
    (hseed : seedAllowMap (parseAllowedIPAddr s) mapEmpty = some m') :
    (∀ bs, some bs ∈ parseAllowedIPAddr s → mapCount m' (keyOfBytes bs) = 1)
    ∧ some [127, 0, 0, 1] ∈ parseAllowedIPAddr s
    ∧ some [169, 254, 169, 254] ∈ parseAllowedIPAddr s
    ∧ some [168, 63, 129, 16] ∈ parseAllowedIPAddr s
    ∧ seedAllowMap (parseAllowedIPAddr s) m' = some m' := by
  have hnd : nodupKeys m' := by
    apply seed_nodup _ _ _ hseed
    simp [nodupKeys, mapEmpty]
  have hones : allOnes m' := by
    apply seed_allOnes _ _ _ hseed
    intro p hp
    simp [mapEmpty] at hp
  have hfix : parseThenTo4 localLoopback = some [127, 0, 0, 1]
      ∧ parseThenTo4 linkLocal = some [169, 254, 169, 254]
      ∧ parseThenTo4 azureMeta = some [168, 63, 129, 16] := by decide
  have hfixmem : ∀ x ∈ [parseThenTo4 localLoopback, parseThenTo4 linkLocal,
      parseThenTo4 azureMeta], x ∈ parseAllowedIPAddr s := by
    intro x hx
    unfold parseAllowedIPAddr
    exact List.mem_append_right _ hx
  refine ⟨?_, ?_, ?_, ?_, ?_⟩
  · intro bs hmem
    exact mapCount_eq_one _ _ hnd (seed_has_of_elem _ _ _ _ hseed hmem)
  · have := hfixmem (parseThenTo4 localLoopback) (by simp)
    rwa [hfix.1] at this
  · have := hfixmem (parseThenTo4 linkLocal) (by simp)
    rwa [hfix.2.1] at this
  · have := hfixmem (parseThenTo4 azureMeta) (by simp)
    rwa [hfix.2.2] at this
  · apply seed_idem _ _ hones
    intro h hmem
    rcases seed_elems_wf _ _ _ hseed h hmem with ⟨bs, rfl, hl⟩
    exact ⟨bs, rfl, hl, seed_has_of_elem _ _ _ _ hseed hmem⟩

/-- Witness for the amended C8 at a one-address seed configuration. -/
theorem parse_seed_exactly_once_witness :
    seedAllowMap (parseAllowedIPAddr "10.0.0.1") mapEmpty
        = some ((seedAllowMap (parseAllowedIPAddr "10.0.0.1") mapEmpty).getD mapEmpty)
    ∧ some [10, 0, 0, 1] ∈ parseAllowedIPAddr "10.0.0.1"
    ∧ mapCount ((seedAllowMap (parseAllowedIPAddr "10.0.0.1") mapEmpty).getD mapEmpty)
        (keyOfBytes [10, 0, 0, 1]) = 1 :=
  ⟨by decide, by decide,
   (parse_seed_exactly_once "10.0.0.1" _ (by decide)).1 [10, 0, 0, 1] (by decide)⟩

/-- C9: the allow map never shrinks — seeding and every event-loop
iteration only add or re-assert entries; a key present before any of these
operations is present afterwards. -/
theorem allow_map_never_shrinks :
    (∀ hs m m' k, seedAllowMap hs m = some m' → mapHas m k = true → mapHas m' k = true)
    ∧ (∀ resolve m rs k, mapHas m k = true → mapHas (runLoop resolve m rs).1 k = true) :=
  ⟨fun hs m m' k hseed h => seed_has_mono hs m m' k hseed h,
   fun resolve m rs k h => runLoop_has_mono resolve m rs k h⟩

/-- Witness for C9 at a concrete map, seed list and read trace. -/
theorem allow_map_never_shrinks_witness :
    mapHas [(5, 1)] 5 = true
    ∧ mapHas ((runLoop (fun _ => ["."]) [(5, 1)] [ReadResult.otherErr]).1) 5 = true
    ∧ seedAllowMap [some [10, 0, 0, 1]] [(5, 1)]
        = some (mapPut [(5, 1)] (keyOfBytes [10, 0, 0, 1]) 1)
    ∧ mapHas (mapPut [(5, 1)] (keyOfBytes [10, 0, 0, 1]) 1) 5 = true :=
  ⟨by decide,
   allow_map_never_shrinks.2 (fun _ => ["."]) [(5, 1)] [ReadResult.otherErr] 5 (by decide),
   by decide,
   allow_map_never_shrinks.1 [some [10, 0, 0, 1]] [(5, 1)] _ 5 (by decide) (by decide)⟩

/-- C10 (code bug): the tracer suffix-matching loop bounds its index by the
byte length of the hosts flag string, not by the length of the two-element
allow-suffix list it indexes; with the seven-byte hosts flag `1.2.3.4` and
any decoded event with a nonempty resolved-name list, index 2 is accessed
out of range — a runtime panic. -/
theorem tracer_suffix_loop_index_oob :
    allowedHostsAddress.length = 2
    ∧ 2 < goStrLen "1.2.3.4"
    ∧ tracerSuffixLoop "1.2.3.4" ["."] mapEmpty 0 = none := by decide

end Kntrl
